/-
  Verification of the transform library in
  `src/exoplanet/distributions/transforms.py` (danhey/exoplanet).

  Shallow embedding over ℝ: the elementwise tensor operations of the
  source (`tt.nnet.sigmoid`, `tt.log`, `tt.sqrt`, `tt.nnet.softplus`,
  `tt.switch`, ...) are modelled as real functions, batched operations as
  functions on lists of reals.  Each definition below is a direct
  transcription of the corresponding Python method.
-/
import Mathlib

open Real

/-- Source: `tt.nnet.sigmoid(y) = 1 / (1 + exp(-y))`. -/
noncomputable def sigmoid (y : ℝ) : ℝ := (1 + Real.exp (-y))⁻¹

/-- Source: `tt.nnet.softplus(y) = log(1 + exp(y))`. -/
noncomputable def softplus (y : ℝ) : ℝ := Real.log (1 + Real.exp y)

/-- The pattern `tt.log(q) - tt.log(1 - q)` used by the source whenever it
maps a `(0,1)` quantity to the unconstrained line. -/
noncomputable def logit (q : ℝ) : ℝ := Real.log q - Real.log (1 - q)

/-! ### AbsoluteValueTransform -/

/-- Source: `AbsoluteValueTransform.backward(y)`: `u = 2*sigmoid(y) - 1; abs(u)`. -/
noncomputable def absBackward (y : ℝ) : ℝ := |2 * sigmoid y - 1|

/-- Source: `AbsoluteValueTransform.forward(x)`: `q = 0.5*(x+1); log(q) - log(1-q)`. -/
noncomputable def absForward (x : ℝ) : ℝ := logit (0.5 * (x + 1))

/-- Source: `AbsoluteValueTransform.jacobian_det(y) = -2*softplus(-y) - y`. -/
noncomputable def absJacobianDet (y : ℝ) : ℝ := -2 * softplus (-y) - y

/-! ### Basic facts about the sigmoid -/

lemma one_add_exp_pos (y : ℝ) : 0 < 1 + Real.exp y := by
  have := Real.exp_pos y; linarith

lemma one_add_exp_ne_zero (y : ℝ) : 1 + Real.exp y ≠ 0 :=
  ne_of_gt (one_add_exp_pos y)

lemma sigmoid_pos (y : ℝ) : 0 < sigmoid y := by
  unfold sigmoid
  exact inv_pos.mpr (one_add_exp_pos (-y))

lemma sigmoid_lt_one (y : ℝ) : sigmoid y < 1 := by
  unfold sigmoid
  rw [inv_lt_one₀ (one_add_exp_pos (-y))]
  have := Real.exp_pos (-y); linarith

lemma sigmoid_zero : sigmoid 0 = 1 / 2 := by
  unfold sigmoid
  rw [neg_zero, Real.exp_zero]
  norm_num

/-- The sigmoid inverts the source's `log q - log (1-q)` pattern on `(0,1)`. -/
lemma sigmoid_logit {r : ℝ} (h0 : 0 < r) (h1 : r < 1) : sigmoid (logit r) = r := by
  unfold sigmoid logit
  rw [neg_sub, Real.exp_sub, Real.exp_log (by linarith), Real.exp_log h0]
  field_simp

/-! ### QuadLimbDarkTransform -/

/-- Source: `QuadLimbDarkTransform.backward(y)`: `q = sigmoid(y)` componentwise;
`sqrtq1 = sqrt(q[0]); twoq2 = 2*q[1]; u = [sqrtq1*twoq2, sqrtq1*(1-twoq2)]`. -/
noncomputable def qldBackward (y : ℝ × ℝ) : ℝ × ℝ :=
  let q1 := sigmoid y.1
  let q2 := sigmoid y.2
  let sqrtq1 := Real.sqrt q1
  let twoq2 := 2 * q2
  (sqrtq1 * twoq2, sqrtq1 * (1 - twoq2))

/-! ### RadiusImpactTransform

Construction parameters `min_radius (pl)`, `max_radius (pu)`; `__init__`
derives `dr = max_radius - min_radius` and `Ar = dr / (2 + min_radius +
max_radius)`.  All methods are parameterized by `pl, pu` below. -/

/-- Source: `self.dr = self.max_radius - self.min_radius`. -/
noncomputable def riDr (pl pu : ℝ) : ℝ := pu - pl

/-- Source: `self.Ar = self.dr / (2 + self.min_radius + self.max_radius)`. -/
noncomputable def riAr (pl pu : ℝ) : ℝ := (pu - pl) / (2 + pl + pu)

/-- Source: `backward`: `b1 = (1 + pl) * (1 + (r1 - 1) / (1 - self.Ar))`. -/
noncomputable def riB1 (pl pu r1 : ℝ) : ℝ :=
  (1 + pl) * (1 + (r1 - 1) / (1 - riAr pl pu))

/-- Source: `backward`: `p1 = pl + r2 * self.dr`. -/
noncomputable def riP1 (pl pu r2 : ℝ) : ℝ := pl + r2 * riDr pl pu

/-- Source: `backward`: `q1 = r1 / self.Ar; q2 = r2;
b2 = (1 + pl) + tt.sqrt(q1) * q2 * self.dr`. -/
noncomputable def riB2 (pl pu r1 r2 : ℝ) : ℝ :=
  (1 + pl) + Real.sqrt (r1 / riAr pl pu) * r2 * riDr pl pu

/-- Source: `backward`: `p2 = pu - self.dr * tt.sqrt(q1) * (1 - q2)`. -/
noncomputable def riP2 (pl pu r1 r2 : ℝ) : ℝ :=
  pu - riDr pl pu * Real.sqrt (r1 / riAr pl pu) * (1 - r2)

/-- Source: `RadiusImpactTransform.backward(y)`: sigmoid both components, then
`tt.switch(r1 > Ar, stack(p1, b1), stack(p2, b2))`. -/
noncomputable def riBackward (pl pu : ℝ) (y : ℝ × ℝ) : ℝ × ℝ :=
  let r1 := sigmoid y.1
  let r2 := sigmoid y.2
  if r1 > riAr pl pu then (riP1 pl pu r2, riB1 pl pu r1)
  else (riP2 pl pu r1 r2, riB2 pl pu r1 r2)

/-- Source: `forward`: `r11 = (b / (1 + pl) - 1) * (1 - self.Ar) + 1`. -/
noncomputable def riR11 (pl pu b : ℝ) : ℝ :=
  (b / (1 + pl) - 1) * (1 - riAr pl pu) + 1

/-- Source: `forward`: `r21 = (p - pl) / self.dr`. -/
noncomputable def riR21 (pl pu p : ℝ) : ℝ := (p - pl) / riDr pl pu

/-- Source: `forward`: `arg = p - b - self.dr + 1`. -/
noncomputable def riArg (pl pu p b : ℝ) : ℝ := p - b - riDr pl pu + 1

/-- Source: `forward`: `q1 = (arg / self.dr) ** 2; r12 = q1 * self.Ar`. -/
noncomputable def riR12 (pl pu p b : ℝ) : ℝ :=
  (riArg pl pu p b / riDr pl pu) ^ 2 * riAr pl pu

/-- Source: `forward`: `q2 = (pl - b + 1) / arg; r22 = q2`. -/
noncomputable def riR22 (pl pu p b : ℝ) : ℝ := (pl - b + 1) / riArg pl pu p b

/-- Source: `RadiusImpactTransform.forward(x)`: `p = x[0]; b = x[1]`, then
`y = tt.switch(b <= 1, stack(r11, r21), stack(r12, r22))` followed by
`tt.log(y) - tt.log(1 - y)` componentwise. -/
noncomputable def riForward (pl pu : ℝ) (x : ℝ × ℝ) : ℝ × ℝ :=
  let p := x.1
  let b := x.2
  let r := if b ≤ 1 then (riR11 pl pu b, riR21 pl pu p)
           else (riR12 pl pu p b, riR22 pl pu p b)
  (logit r.1, logit r.2)

/-- Source: `RadiusImpactTransform.forward_val(x, point)` for concrete (non-dynamic)
`min_radius`/`max_radius`, in which case `draw_values` resolves
`self.min_radius - 0.0`, `self.Ar - 0.0` and `self.dr - 0.0` to the
construction-time numbers.  The numpy code builds the boolean mask
`m = b <= 1` over the batch and assigns `r[0, m], r[1, m]` from the
non-grazing formulas and `r[0, ~m], r[1, ~m]` from the grazing formulas;
elementwise this is exactly a per-element selection on `b <= 1`, which is
how it is rendered here over a list of `(p, b)` pairs.  The final line is
`np.log(r) - np.log(1 - r)` componentwise. -/
noncomputable def riForwardVal (pl pu : ℝ) (xs : List (ℝ × ℝ)) : List (ℝ × ℝ) :=
  let Ar := riAr pl pu
  let dr := riDr pl pu
  xs.map fun x =>
    let p := x.1
    let b := x.2
    let r := if b ≤ 1 then
        ((b / (1 + pl) - 1) * (1 - Ar) + 1, (p - pl) / dr)
      else
        (((p - b - dr + 1) / dr) ^ 2 * Ar, (pl - b + 1) / (p - b - dr + 1))
    (Real.log r.1 - Real.log (1 - r.1), Real.log r.2 - Real.log (1 - r.2))

/-- The configuration state computed by `RadiusImpactTransform.__init__`. -/
structure RadiusImpactParams where
  min_radius : ℝ
  max_radius : ℝ
  dr : ℝ
  Ar : ℝ

/-- Source: `RadiusImpactTransform.__init__(min_radius, max_radius)`: stores the two
radii and derives `dr` and `Ar`.  The constructor contains no validation and
no `raise`; `Option` models the possibility of a construction-time failure,
and the source never produces one. -/
noncomputable def radiusImpactInit (pl pu : ℝ) : Option RadiusImpactParams :=
  some ⟨pl, pu, pu - pl, (pu - pl) / (2 + pl + pu)⟩

/-! ### ImpactParameterTransform

`ImpactParameterTransform` subclasses pymc3's `LogOdds` interval transform
and delegates to `super()`.  pymc3 is an external dependency whose code is
not part of this repository. -/

/-- Modelled from the spec: the `backward` of pymc3's `LogOdds` ("standard
bounded-interval (logit-based) transform"), the inverse-logit `sigmoid`. -/
noncomputable def logOddsBackward (y : ℝ) : ℝ := sigmoid y

/-- Modelled from the spec: the `forward` of pymc3's `LogOdds`, the logit. -/
noncomputable def logOddsForward (x : ℝ) : ℝ := logit x

/-- Modelled from the spec: the `jacobian_det` of pymc3's `LogOdds`, the log
derivative of the inverse-logit, `log(sigmoid(y)*(1-sigmoid(y)))
= -2*softplus(-y) - y`. -/
noncomputable def logOddsJacobianDet (y : ℝ) : ℝ := -2 * softplus (-y) - y

/-- Source: `ImpactParameterTransform.backward(x)`:
`bhat = super().backward(x); bhat * self.one_plus_ror`. -/
noncomputable def ipBackward (ror y : ℝ) : ℝ := logOddsBackward y * (1 + ror)

/-- Source: `ImpactParameterTransform.forward(x)`:
`super().forward(x / self.one_plus_ror)`. -/
noncomputable def ipForward (ror x : ℝ) : ℝ := logOddsForward (x / (1 + ror))

/-- Source: `ImpactParameterTransform.jacobian_det(y)`:
`super().jacobian_det(y) - tt.log(self.one_plus_ror)`. -/
noncomputable def ipJacobianDet (ror y : ℝ) : ℝ :=
  logOddsJacobianDet y - Real.log (1 + ror)

/-- Source: `ImpactParameterTransform.backward_val(x)`: unconditionally
`raise NotImplementedError(...)`. -/
def ipBackwardVal (x : ℝ) : Except String ℝ :=
  Except.error
    "backward_val isn\x27t implemented for the impact parameter transform"

/-! ### Helper computations at concrete points -/

/-- Fact: `sigmoid(0) = 1/2`, so `QuadLimbDark.backward([0,0]) = [sqrt(1/2), 0]`. -/
lemma qldBackward_zero : qldBackward (0, 0) = (Real.sqrt (1 / 2), 0) := by
  unfold qldBackward
  rw [show ((0, 0) : ℝ × ℝ).1 = 0 from rfl, show ((0, 0) : ℝ × ℝ).2 = 0 from rfl,
    sigmoid_zero]
  norm_num

/-- Fact: `sqrt(1/2)` is not `1/2`. -/
lemma sqrt_half_ne_half : Real.sqrt (1 / 2) ≠ 1 / 2 := by
  intro h
  have hsq := Real.sq_sqrt (by norm_num : (0 : ℝ) ≤ 1 / 2)
  rw [h] at hsq
  norm_num at hsq

/-! ### C3 -/

/-- C3 counterexample: `QuadLimbDarkTransform.backward([0, 0])` is not
`[0.5, 0.0]` — its first component is `sqrt(1/2) ≈ 0.707`, not `0.5`. -/
theorem qldBackward_zero_ne_half : qldBackward (0, 0) ≠ ((0.5 : ℝ), (0.0 : ℝ)) := by
  rw [qldBackward_zero]
  intro h
  have h1 : Real.sqrt (1 / 2) = 0.5 := congrArg Prod.fst h
  apply sqrt_half_ne_half
  rw [h1]
  norm_num

/-- C3 amended: `QuadLimbDarkTransform.backward([0, 0]) = [sqrt(1/2), 0]`
(numerically `[0.7071..., 0.0]`): `sigmoid(0) = 1/2`, `sqrtq1 = sqrt(1/2)`,
`twoq2 = 1`, so `u = [sqrt(1/2) * 1, sqrt(1/2) * 0]`. -/
theorem qldBackward_zero_eq : qldBackward (0, 0) = (Real.sqrt (1 / 2), 0) :=
  qldBackward_zero

/-! ### C6 -/

/-- C6: for concrete `min_radius`/`max_radius`, the numeric path
`forward_val` returns, elementwise over any batch of `(p, b)` pairs, exactly
the values of the graph path `forward`: both select between the `b <= 1`
and `b > 1` branches per element and both compute the same closed-form
expressions. -/
theorem riForwardVal_eq_map_riForward (pl pu : ℝ) (xs : List (ℝ × ℝ)) :
    riForwardVal pl pu xs = xs.map (riForward pl pu) := by
  unfold riForwardVal riForward riR11 riR21 riR12 riR22 riArg logit
  rfl

/-! ### C7 -/

/-- C7: `ImpactParameterTransform` delegates to the `LogOdds` interval
transform: `backward(y) = logOdds_backward(y) * (1 + ror)`,
`forward(x) = logOdds_forward(x / (1 + ror))`, and
`jacobian_det(y) = logOdds_jacobian_det(y) - log(1 + ror)`. -/
theorem ipTransform_delegates (ror y x z : ℝ) :
    ipBackward ror y = logOddsBackward y * (1 + ror) ∧
    ipForward ror x = logOddsForward (x / (1 + ror)) ∧
    ipJacobianDet ror z = logOddsJacobianDet z - Real.log (1 + ror) :=
  ⟨rfl, rfl, rfl⟩

/-! ### C8 -/

/-- C8 counterexample: constructing `RadiusImpactTransform` with
`min_radius = 1, max_radius = 0` (so `max_radius <= min_radius`) does not
fail: `__init__` performs no validation and returns normally. -/
theorem radiusImpactInit_invalid_succeeds : radiusImpactInit 1 0 ≠ none := by
  unfold radiusImpactInit
  exact Option.some_ne_none _

/-- C8 amended: `RadiusImpactTransform.__init__` accepts every
configuration, including `max_radius <= min_radius`: it unconditionally
stores the radii and the derived `dr` and `Ar` and never raises, so the
invalid configuration is accepted (and only produces degenerate values at
first use). -/
theorem radiusImpactInit_total (pl pu : ℝ) (h : pu ≤ pl) :
    radiusImpactInit pl pu =
      some ⟨pl, pu, pu - pl, (pu - pl) / (2 + pl + pu)⟩ := rfl

/-- Witness for C8 amended at `min_radius = 1, max_radius = 0`. -/
theorem radiusImpactInit_total_witness :
    (0 : ℝ) ≤ 1 ∧
      radiusImpactInit 1 0 = some ⟨1, 0, 0 - 1, (0 - 1) / (2 + 1 + 0)⟩ :=
  ⟨by norm_num, radiusImpactInit_total 1 0 (by norm_num)⟩

/-! ### C9 -/

/-- C9: `ImpactParameterTransform.backward_val` raises
`NotImplementedError` on every input and never returns a value. -/
theorem ipBackwardVal_always_fails (x : ℝ) :
    ipBackwardVal x =
      Except.error
        "backward_val isn\x27t implemented for the impact parameter transform" :=
  rfl

/-! ### C10 -/

/-- C10: for every real `y`, `AbsoluteValueTransform.backward(y) =
|2*sigmoid(y) - 1|` lies in `[0, 1)`: it is non-negative (so no point of
the negative half of `(-1, 1)` is ever produced) and strictly below `1`. -/
theorem absBackward_mem_Ico (y : ℝ) : absBackward y ∈ Set.Ico (0 : ℝ) 1 := by
  unfold absBackward
  refine ⟨abs_nonneg _, ?_⟩
  have h0 := sigmoid_pos y
  have h1 := sigmoid_lt_one y
  rw [abs_lt]
  constructor <;> linarith

/-! ### Facts about the Espinoza constants -/

lemma riAr_pos {pl pu : ℝ} (h0 : 0 ≤ pl) (h1 : pl < pu) : 0 < riAr pl pu := by
  unfold riAr
  apply div_pos <;> linarith

lemma riAr_lt_one {pl pu : ℝ} (h0 : 0 ≤ pl) (h1 : pl < pu) : riAr pl pu < 1 := by
  unfold riAr
  rw [div_lt_one (by linarith)]
  linarith

lemma riAr_zero_two : riAr 0 2 = 1 / 2 := by
  unfold riAr
  norm_num

/-! ### C1 -/

/-- Fact: `logit(1) = 0` under the junk value `log 0 = 0`. -/
lemma logit_one : logit 1 = 0 := by
  unfold logit
  simp

/-- Fact: `logit(1/8) < 0` since `1/8 < 7/8`. -/
lemma logit_one_eighth_neg : logit (1 / 8) < 0 := by
  unfold logit
  have h : Real.log (1 / 8) < Real.log (7 / 8) :=
    Real.log_lt_log (by norm_num) (by norm_num)
  have h78 : (1 : ℝ) - 1 / 8 = 7 / 8 := by norm_num
  rw [h78]
  linarith

lemma riB1_boundary_val : riB1 0 2 (riAr 0 2) = 0 := by
  unfold riB1 riAr
  norm_num

lemma riB2_boundary_val : riB2 0 2 (riAr 0 2) (1 / 2) = 2 := by
  unfold riB2 riAr riDr
  norm_num [Real.sqrt_one]

lemma riR11_boundary_val : riR11 0 2 1 = 1 := by
  unfold riR11 riAr
  norm_num

lemma riR12_boundary_val : riR12 0 2 1 1 = 1 / 8 := by
  unfold riR12 riArg riAr riDr
  norm_num

/-- C1 counterexample: with `min_radius = 0, max_radius = 2` (`Ar = 1/2`,
`dr = 2`), at the backward branch boundary `sigmoid(y0) = Ar` with
`r2 = 1/2` the two branch formulas give `b = 0` (branch A) versus `b = 2`
(branch B); and at the forward branch boundary `b = 1` with `p = 1` the two
branch formulas give different unconstrained first components
(`logit(1) = 0` versus `logit(1/8) < 0`). -/
theorem riBranch_boundary_jump :
    riB1 0 2 (riAr 0 2) ≠ riB2 0 2 (riAr 0 2) (1 / 2) ∧
    logit (riR11 0 2 1) ≠ logit (riR12 0 2 1 1) := by
  constructor
  · rw [riB1_boundary_val, riB2_boundary_val]
    norm_num
  · rw [riR11_boundary_val, riR12_boundary_val, logit_one]
    exact (ne_of_lt logit_one_eighth_neg).symm

/-- C1 amended: at the backward branch boundary `sigmoid(y[0]) = Ar` the
two branch formulas of `backward` agree in the `p` component only — both
give `pl + r2*dr` for every `r2` — while the `b` components disagree:
branch A gives `b = 0` and branch B gives `b = (1+pl) + r2*dr`, so
`backward` jumps across the boundary (and correspondingly the forward
branch formulas at `b = 1` need not agree). -/
theorem riBoundary_p_agrees_b_jumps (pl pu r2 : ℝ) (h0 : 0 ≤ pl)
    (h1 : pl < pu) :
    riP1 pl pu r2 = riP2 pl pu (riAr pl pu) r2 ∧
    riB1 pl pu (riAr pl pu) = 0 ∧
    riB2 pl pu (riAr pl pu) r2 = (1 + pl) + r2 * riDr pl pu := by
  have hAr0 : 0 < riAr pl pu := riAr_pos h0 h1
  have hAr1 : riAr pl pu < 1 := riAr_lt_one h0 h1
  have hs : Real.sqrt (riAr pl pu / riAr pl pu) = 1 := by
    rw [div_self (ne_of_gt hAr0), Real.sqrt_one]
  refine ⟨?_, ?_, ?_⟩
  · unfold riP1 riP2
    rw [hs]
    unfold riDr
    ring
  · unfold riB1
    have h2 : (1 : ℝ) - riAr pl pu ≠ 0 := by linarith
    field_simp
  · unfold riB2
    rw [hs]
    ring

/-- Witness for the amended C1 at `pl = 0, pu = 2, r2 = 1/2`. -/
theorem riBoundary_p_agrees_b_jumps_witness :
    (0 : ℝ) ≤ 0 ∧ (0 : ℝ) < 2 ∧
    (riP1 0 2 (1 / 2) = riP2 0 2 (riAr 0 2) (1 / 2) ∧
     riB1 0 2 (riAr 0 2) = 0 ∧
     riB2 0 2 (riAr 0 2) (1 / 2) = (1 + 0) + (1 / 2) * riDr 0 2) :=
  ⟨le_refl 0, by norm_num, riBoundary_p_agrees_b_jumps 0 2 (1 / 2) (le_refl 0) (by norm_num)⟩

/-! ### C5 -/

lemma riBackward_boundary_val : riBackward 0 2 (0, 0) = (1, 2) := by
  unfold riBackward
  rw [show ((0, 0) : ℝ × ℝ).1 = 0 from rfl, show ((0, 0) : ℝ × ℝ).2 = 0 from rfl,
    sigmoid_zero, riAr_zero_two]
  rw [if_neg (lt_irrefl (1 / 2))]
  unfold riP2 riB2 riDr riAr
  norm_num [Real.sqrt_one]

/-- C5 counterexample: with `min_radius = 0, max_radius = 2`, at
`y = (0, 0)` (so `sigmoid(y[0]) = 1/2 = Ar` exactly), `backward` returns
`(p, b) = (1, 2)` with `b = 1 + p`, violating the claimed strict bound
`b < 1 + p`. -/
theorem riBackward_boundary_not_strict :
    ¬ ((riBackward 0 2 (0, 0)).2 < 1 + (riBackward 0 2 (0, 0)).1) := by
  rw [riBackward_boundary_val]
  norm_num

/-- C5 amended: for `0 ≤ min_radius < max_radius`, `backward` is total over
all real 2-vectors `y` and its output `(p, b)` always satisfies
`min_radius < p < max_radius`, `0 < b` and `b ≤ 1 + p`; the equality
`b = 1 + p` is attained exactly when `sigmoid(y[0]) = Ar`, so the strict
bound `b < 1 + p` of the claim fails only on that branch boundary. -/
theorem riBackward_in_domain (pl pu y1 y2 : ℝ) (h0 : 0 ≤ pl) (h1 : pl < pu) :
    pl < (riBackward pl pu (y1, y2)).1 ∧
    (riBackward pl pu (y1, y2)).1 < pu ∧
    0 < (riBackward pl pu (y1, y2)).2 ∧
    (riBackward pl pu (y1, y2)).2 ≤ 1 + (riBackward pl pu (y1, y2)).1 := by
  have hAr0 : 0 < riAr pl pu := riAr_pos h0 h1
  have hAr1 : riAr pl pu < 1 := riAr_lt_one h0 h1
  have hr1a := sigmoid_pos y1
  have hr1b := sigmoid_lt_one y1
  have hr2a := sigmoid_pos y2
  have hr2b := sigmoid_lt_one y2
  unfold riBackward riP1 riB1 riP2 riB2 riDr
  rw [show ((y1, y2) : ℝ × ℝ).1 = y1 from rfl, show ((y1, y2) : ℝ × ℝ).2 = y2 from rfl]
  set r1 := sigmoid y1 with hr1
  set r2 := sigmoid y2 with hr2
  by_cases hc : r1 > riAr pl pu
  · rw [if_pos hc]
    dsimp only
    have h1Ar : 0 < 1 - riAr pl pu := by linarith
    have hbpos : 0 < 1 + (r1 - 1) / (1 - riAr pl pu) := by
      have : -1 < (r1 - 1) / (1 - riAr pl pu) := by
        rw [lt_div_iff₀ h1Ar]
        linarith
      linarith
    have hbneg : (r1 - 1) / (1 - riAr pl pu) < 0 :=
      div_neg_of_neg_of_pos (by linarith) h1Ar
    have hblt : (1 + pl) * (1 + (r1 - 1) / (1 - riAr pl pu)) < 1 + pl := by
      nlinarith
    refine ⟨by nlinarith, by nlinarith, by nlinarith, by nlinarith⟩
  · rw [if_neg hc]
    dsimp only
    push_neg at hc
    have hq0 : 0 < r1 / riAr pl pu := div_pos hr1a hAr0
    have hq1 : r1 / riAr pl pu ≤ 1 := (div_le_one hAr0).mpr hc
    have hs0 : 0 < Real.sqrt (r1 / riAr pl pu) := Real.sqrt_pos.mpr hq0
    have hs1 : Real.sqrt (r1 / riAr pl pu) ≤ 1 := by
      rw [show (1 : ℝ) = Real.sqrt 1 from (Real.sqrt_one).symm]
      exact Real.sqrt_le_sqrt hq1
    set s := Real.sqrt (r1 / riAr pl pu) with hsdef
    have hdr : (0 : ℝ) < pu - pl := by linarith
    have hprod : s * (1 - r2) < 1 := by nlinarith
    have h3 : (pu - pl) * (s * (1 - r2)) < (pu - pl) * 1 :=
      mul_lt_mul_of_pos_left hprod hdr
    have h4 : 0 < (pu - pl) * s * (1 - r2) :=
      mul_pos (mul_pos hdr hs0) (by linarith)
    have h5 : 0 < s * r2 * (pu - pl) := mul_pos (mul_pos hs0 hr2a) hdr
    have h6 : s * (pu - pl) ≤ pu - pl := by nlinarith
    refine ⟨?_, ?_, ?_, ?_⟩
    · nlinarith [h3]
    · linarith [h4]
    · linarith [h5]
    · nlinarith [h6]

/-- Witness for the amended C5 at `pl = 0, pu = 2, y = (0, 0)`. -/
theorem riBackward_in_domain_witness :
    (0 : ℝ) ≤ 0 ∧ (0 : ℝ) < 2 ∧
    (0 < (riBackward 0 2 ((0 : ℝ), (0 : ℝ))).1 ∧
     (riBackward 0 2 ((0 : ℝ), (0 : ℝ))).1 < 2 ∧
     0 < (riBackward 0 2 ((0 : ℝ), (0 : ℝ))).2 ∧
     (riBackward 0 2 ((0 : ℝ), (0 : ℝ))).2 ≤ 1 + (riBackward 0 2 ((0 : ℝ), (0 : ℝ))).1) :=
  ⟨le_refl 0, by norm_num, riBackward_in_domain 0 2 0 0 (le_refl 0) (by norm_num)⟩

/-! ### C2 -/

/-- On the declared domain the AbsoluteValue round trip returns `|x|`,
since `sigmoid` inverts the logit and `2*(0.5*(x+1)) - 1 = x`. -/
lemma absBackward_absForward {x : ℝ} (h0 : -1 < x) (h1 : x < 1) :
    absBackward (absForward x) = |x| := by
  unfold absBackward absForward
  rw [sigmoid_logit (by linarith) (by linarith)]
  congr 1
  ring

/-- C2 counterexample: `x = -1/2` lies in AbsoluteValue's declared
constrained domain `(-1, 1)`, but
`backward(forward(-1/2)) = |sign lost| = 1/2 ≠ -1/2`. -/
theorem absRoundTrip_fails :
    (-(1 / 2) : ℝ) ∈ Set.Ioo (-1 : ℝ) 1 ∧
    absBackward (absForward (-(1 / 2))) ≠ -(1 / 2) := by
  refine ⟨by norm_num, ?_⟩
  rw [absBackward_absForward (by norm_num) (by norm_num)]
  have habs : |(-(1 / 2) : ℝ)| = 1 / 2 := by
    rw [abs_neg]
    exact abs_of_pos (by norm_num)
  rw [habs]
  norm_num

/-- RadiusImpact round trip on the non-grazing region
`0 < b ≤ 1`, `b < 1 + pl`. -/
lemma riRoundTrip_nongrazing {pl pu p b : ℝ} (h0 : 0 ≤ pl) (h1 : pl < pu)
    (hp0 : pl < p) (hp1 : p < pu) (hb0 : 0 < b) (hb1 : b ≤ 1)
    (hbpl : b < 1 + pl) :
    riBackward pl pu (riForward pl pu (p, b)) = (p, b) := by
  have hAr0 : 0 < riAr pl pu := riAr_pos h0 h1
  have hAr1 : riAr pl pu < 1 := riAr_lt_one h0 h1
  have hdr : (0 : ℝ) < riDr pl pu := by unfold riDr; linarith
  have h1pl : (0 : ℝ) < 1 + pl := by linarith
  have ht0 : 0 < b / (1 + pl) := div_pos hb0 h1pl
  have ht1 : b / (1 + pl) < 1 := (div_lt_one h1pl).mpr (by linarith [hbpl])
  have hr11_gt : riAr pl pu < riR11 pl pu b := by
    unfold riR11
    nlinarith
  have hr11_lt : riR11 pl pu b < 1 := by
    unfold riR11
    nlinarith
  have hr11_pos : 0 < riR11 pl pu b := lt_trans hAr0 hr11_gt
  have hr21_pos : 0 < riR21 pl pu p := by
    unfold riR21
    exact div_pos (by linarith) hdr
  have hr21_lt : riR21 pl pu p < 1 := by
    unfold riR21
    rw [div_lt_one hdr]
    unfold riDr
    linarith
  unfold riForward
  dsimp only
  rw [if_pos hb1]
  unfold riBackward
  dsimp only
  rw [sigmoid_logit hr11_pos hr11_lt, sigmoid_logit hr21_pos hr21_lt,
    if_pos hr11_gt]
  have hP : riP1 pl pu (riR21 pl pu p) = p := by
    unfold riP1 riR21 riDr
    have hdrne : pu - pl ≠ 0 := ne_of_gt (by linarith)
    field_simp
  have hB : riB1 pl pu (riR11 pl pu b) = b := by
    unfold riB1 riR11
    have hne : (1 : ℝ) - riAr pl pu ≠ 0 := by linarith
    have hplne : (1 : ℝ) + pl ≠ 0 := ne_of_gt h1pl
    field_simp
    ring
  rw [hP, hB]

/-- A ratio with negative numerator excess over a negative denominator is
below one. -/
lemma div_lt_one_of_neg_aux {a c : ℝ} (hc : c < 0) (h : c < a) : a / c < 1 := by
  have hcne : c ≠ 0 := ne_of_lt hc
  have hneg : (a - c) / c < 0 := div_neg_of_pos_of_neg (by linarith) hc
  have heq : a / c = 1 + (a - c) / c := by field_simp
  rw [heq]
  linarith

/-- RadiusImpact round trip on the grazing region `1 + pl < b < 1 + p`. -/
lemma riRoundTrip_grazing {pl pu p b : ℝ} (h0 : 0 ≤ pl) (h1 : pl < pu)
    (hp1 : p < pu) (hbl : 1 + pl < b) (hbu : b < 1 + p) :
    riBackward pl pu (riForward pl pu (p, b)) = (p, b) := by
  have hAr0 : 0 < riAr pl pu := riAr_pos h0 h1
  have hAr1 : riAr pl pu < 1 := riAr_lt_one h0 h1
  have hArne : riAr pl pu ≠ 0 := ne_of_gt hAr0
  have hdr : (0 : ℝ) < riDr pl pu := by unfold riDr; linarith
  have hb1not : ¬ (b ≤ 1) := not_le.mpr (by linarith)
  have harg_neg : riArg pl pu p b < 0 := by
    unfold riArg riDr
    linarith
  have harg_gt : -(riDr pl pu) < riArg pl pu p b := by
    unfold riArg riDr at *
    linarith
  have hargne : riArg pl pu p b ≠ 0 := ne_of_lt harg_neg
  have hq : riArg pl pu p b / riDr pl pu < 0 :=
    div_neg_of_neg_of_pos harg_neg hdr
  have hqgt : -1 < riArg pl pu p b / riDr pl pu := by
    rw [lt_div_iff₀ hdr]
    linarith
  have hqne : riArg pl pu p b / riDr pl pu ≠ 0 := ne_of_lt hq
  have hq2_lt : (riArg pl pu p b / riDr pl pu) ^ 2 < 1 := by
    nlinarith
  have hr12_pos : 0 < riR12 pl pu p b := by
    unfold riR12
    exact mul_pos (pow_two_pos_of_ne_zero hqne) hAr0
  have hr12_lt : riR12 pl pu p b < riAr pl pu := by
    unfold riR12
    nlinarith
  have hr12_lt_one : riR12 pl pu p b < 1 := lt_trans hr12_lt hAr1
  have hnum : pl - b + 1 < 0 := by linarith
  have hr22_pos : 0 < riR22 pl pu p b := by
    unfold riR22
    exact div_pos_iff.mpr (Or.inr ⟨hnum, harg_neg⟩)
  have hr22_lt : riR22 pl pu p b < 1 := by
    unfold riR22
    apply div_lt_one_of_neg_aux harg_neg
    unfold riArg riDr
    linarith
  have hrdiv : riR12 pl pu p b / riAr pl pu = (riArg pl pu p b / riDr pl pu) ^ 2 := by
    unfold riR12
    exact mul_div_cancel_right₀ _ hArne
  have hsqrt : Real.sqrt (riR12 pl pu p b / riAr pl pu) =
      -(riArg pl pu p b / riDr pl pu) := by
    rw [hrdiv, Real.sqrt_sq_eq_abs, abs_of_neg hq]
  have hdrne : pu - pl ≠ 0 := ne_of_gt (by linarith)
  have hargne2 : p - b - (pu - pl) + 1 ≠ 0 := by
    apply ne_of_lt
    linarith
  have hP2 : riP2 pl pu (riR12 pl pu p b) (riR22 pl pu p b) = p := by
    unfold riP2
    rw [hsqrt]
    unfold riR22 riArg riDr
    field_simp
    ring
  have hB2 : riB2 pl pu (riR12 pl pu p b) (riR22 pl pu p b) = b := by
    unfold riB2
    rw [hsqrt]
    unfold riR22 riArg riDr
    field_simp
    ring
  unfold riForward
  dsimp only
  rw [if_neg hb1not]
  unfold riBackward
  dsimp only
  rw [sigmoid_logit hr12_pos hr12_lt_one, sigmoid_logit hr22_pos hr22_lt,
    if_neg (not_lt.mpr (le_of_lt hr12_lt))]
  rw [hP2, hB2]

/-- C2 amended: the round trip recovers `x` only up to the known branch
defects.  For AbsoluteValue, `backward(forward(x)) = |x|` on `(-1, 1)` (so
the round trip holds exactly on `[0, 1)` and fails on the negative half,
where the absolute value loses the sign).  For RadiusImpact with
`0 ≤ min_radius < max_radius`, `backward(forward((p, b))) = (p, b)` for
`min_radius < p < max_radius` whenever `0 < b ≤ 1` with `b < 1 + min_radius`
(the `b ≤ 1` branch), or `1 + min_radius < b < 1 + p` (the grazing branch). -/
theorem roundTrip_amended (x pl pu p b : ℝ)
    (hx0 : -1 < x) (hx1 : x < 1) (h0 : 0 ≤ pl) (h1 : pl < pu)
    (hp0 : pl < p) (hp1 : p < pu)
    (hb : (0 < b ∧ b ≤ 1 ∧ b < 1 + pl) ∨ (1 + pl < b ∧ b < 1 + p)) :
    absBackward (absForward x) = |x| ∧
    riBackward pl pu (riForward pl pu (p, b)) = (p, b) := by
  refine ⟨absBackward_absForward hx0 hx1, ?_⟩
  rcases hb with ⟨hb0, hb1, hbpl⟩ | ⟨hbl, hbu⟩
  · exact riRoundTrip_nongrazing h0 h1 hp0 hp1 hb0 hb1 hbpl
  · exact riRoundTrip_grazing h0 h1 hp1 hbl hbu

/-- Witness for the amended C2 at `x = 1/2`, `pl = 1/2, pu = 1, p = 3/4,
b = 1`: the boundary point `b = 1` round trips when `min_radius > 0`. -/
theorem roundTrip_amended_witness :
    ((-1 : ℝ) < 1 / 2 ∧ (1 / 2 : ℝ) < 1 ∧ (0 : ℝ) ≤ 1 / 2 ∧
      (1 / 2 : ℝ) < 1 ∧ (1 / 2 : ℝ) < 3 / 4 ∧ (3 / 4 : ℝ) < 1 ∧
      (((0 : ℝ) < 1 ∧ (1 : ℝ) ≤ 1 ∧ (1 : ℝ) < 1 + 1 / 2) ∨
        ((1 : ℝ) + 1 / 2 < 1 ∧ (1 : ℝ) < 1 + 3 / 4))) ∧
    (absBackward (absForward (1 / 2)) = |(1 / 2 : ℝ)| ∧
      riBackward (1 / 2) 1 (riForward (1 / 2) 1 (3 / 4, 1)) = (3 / 4, 1)) :=
  ⟨⟨by norm_num, by norm_num, by norm_num, by norm_num, by norm_num,
      by norm_num, Or.inl ⟨by norm_num, le_refl 1, by norm_num⟩⟩,
    roundTrip_amended (1 / 2) (1 / 2) 1 (3 / 4) 1 (by norm_num) (by norm_num)
      (by norm_num) (by norm_num) (by norm_num) (by norm_num)
      (Or.inl ⟨by norm_num, le_refl 1, by norm_num⟩)⟩

/-! ### C4 -/

lemma hasDerivAt_sigmoid (y : ℝ) :
    HasDerivAt sigmoid (Real.exp (-y) / (1 + Real.exp (-y)) ^ 2) y := by
  have h1 : HasDerivAt (fun t : ℝ => -t) (-1) y := (hasDerivAt_id y).neg
  have h2 : HasDerivAt (fun t : ℝ => Real.exp (-t)) (Real.exp (-y) * -1) y :=
    h1.exp
  have h3 : HasDerivAt (fun t : ℝ => 1 + Real.exp (-t)) (Real.exp (-y) * -1) y :=
    h2.const_add 1
  have h4 := h3.inv (one_add_exp_ne_zero (-y))
  unfold sigmoid
  convert h4 using 1
  field_simp

lemma hasDerivAt_two_sigmoid_sub_one (y : ℝ) :
    HasDerivAt (fun t : ℝ => 2 * sigmoid t - 1)
      (2 * (Real.exp (-y) / (1 + Real.exp (-y)) ^ 2)) y :=
  ((hasDerivAt_sigmoid y).const_mul 2).sub_const 1

lemma two_sigmoid_sub_one_pos {y : ℝ} (h : 0 < y) : 0 < 2 * sigmoid y - 1 := by
  unfold sigmoid
  have h1 : Real.exp (-y) < 1 := by
    rw [Real.exp_lt_one_iff]
    linarith
  have h2 : (0 : ℝ) < 1 + Real.exp (-y) := one_add_exp_pos (-y)
  have h3 : (1 + Real.exp (-y))⁻¹ * (1 + Real.exp (-y)) = 1 :=
    inv_mul_cancel₀ (ne_of_gt h2)
  have h4 : 0 < (1 + Real.exp (-y))⁻¹ := inv_pos.mpr h2
  nlinarith

lemma two_sigmoid_sub_one_neg {y : ℝ} (h : y < 0) : 2 * sigmoid y - 1 < 0 := by
  unfold sigmoid
  have h1 : 1 < Real.exp (-y) := by
    rw [Real.one_lt_exp_iff]
    linarith
  have h2 : (0 : ℝ) < 1 + Real.exp (-y) := one_add_exp_pos (-y)
  have h3 : (1 + Real.exp (-y))⁻¹ * (1 + Real.exp (-y)) = 1 :=
    inv_mul_cancel₀ (ne_of_gt h2)
  have h4 : 0 < (1 + Real.exp (-y))⁻¹ := inv_pos.mpr h2
  nlinarith

lemma hasDerivAt_absBackward_of_pos {y : ℝ} (h : 0 < y) :
    HasDerivAt absBackward (2 * (Real.exp (-y) / (1 + Real.exp (-y)) ^ 2)) y := by
  have hsm := hasDerivAt_two_sigmoid_sub_one y
  have hpos : 0 < 2 * sigmoid y - 1 := two_sigmoid_sub_one_pos h
  have hev : Set.preimage (fun t : ℝ => 2 * sigmoid t - 1) (Set.Ioi 0) ∈ nhds y :=
    hsm.continuousAt.preimage_mem_nhds (isOpen_Ioi.mem_nhds hpos)
  have heq : absBackward =ᶠ[nhds y] fun t : ℝ => 2 * sigmoid t - 1 := by
    filter_upwards [hev] with t ht
    exact abs_of_pos ht
  exact hsm.congr_of_eventuallyEq heq

lemma hasDerivAt_absBackward_of_neg {y : ℝ} (h : y < 0) :
    HasDerivAt absBackward (-(2 * (Real.exp (-y) / (1 + Real.exp (-y)) ^ 2))) y := by
  have hsm := (hasDerivAt_two_sigmoid_sub_one y).neg
  have hneg : 2 * sigmoid y - 1 < 0 := two_sigmoid_sub_one_neg h
  have hev : Set.preimage (fun t : ℝ => 2 * sigmoid t - 1) (Set.Iio 0) ∈ nhds y :=
    (hasDerivAt_two_sigmoid_sub_one y).continuousAt.preimage_mem_nhds
      (isOpen_Iio.mem_nhds hneg)
  have heq : absBackward =ᶠ[nhds y] fun t : ℝ => -(2 * sigmoid t - 1) := by
    filter_upwards [hev] with t ht
    exact abs_of_neg ht
  exact hsm.congr_of_eventuallyEq heq

/-- Away from `y = 0`, any derivative of `absBackward` has absolute value
`2 * sigmoid(y) * (1 - sigmoid(y)) = 2 * exp(-y) / (1 + exp(-y))^2`. -/
lemma abs_deriv_absBackward {y d : ℝ} (hy : y ≠ 0)
    (hd : HasDerivAt absBackward d y) :
    |d| = 2 * (Real.exp (-y) / (1 + Real.exp (-y)) ^ 2) := by
  have hD : (0 : ℝ) < 2 * (Real.exp (-y) / (1 + Real.exp (-y)) ^ 2) := by
    have := Real.exp_pos (-y)
    have := one_add_exp_pos (-y)
    positivity
  rcases lt_or_gt_of_ne hy with hneg | hpos
  · have hu := hd.unique (hasDerivAt_absBackward_of_neg hneg)
    rw [hu, abs_neg, abs_of_pos hD]
  · have hu := hd.unique (hasDerivAt_absBackward_of_pos hpos)
    rw [hu, abs_of_pos hD]

lemma log_two_mul_sig (y : ℝ) :
    Real.log (2 * (Real.exp (-y) / (1 + Real.exp (-y)) ^ 2)) =
      Real.log 2 - y - 2 * Real.log (1 + Real.exp (-y)) := by
  have he : (0 : ℝ) < Real.exp (-y) := Real.exp_pos _
  have hb : (0 : ℝ) < 1 + Real.exp (-y) := one_add_exp_pos _
  rw [Real.log_mul (by norm_num) (by positivity),
    Real.log_div (ne_of_gt he) (by positivity), Real.log_exp, Real.log_pow]
  push_cast
  ring

lemma exp_neg_log3 : Real.exp (-Real.log 3) = 1 / 3 := by
  rw [Real.exp_neg, Real.exp_log (by norm_num : (0 : ℝ) < 3)]
  norm_num

lemma hasDerivAt_absBackward_log3 :
    HasDerivAt absBackward (3 / 8) (Real.log 3) := by
  have h := hasDerivAt_absBackward_of_pos (Real.log_pos (by norm_num : (1 : ℝ) < 3))
  rw [exp_neg_log3] at h
  norm_num at h
  exact h

/-- C4 counterexample: at `y = log 3` the map `y ↦ |2*sigmoid(y)-1|` is
differentiable with derivative `3/8`, but
`jacobian_det(log 3) = log(3/16) ≠ log|3/8|`: the returned value misses the
constant `log 2` of the true log-derivative. -/
theorem absJacobianDet_not_log_deriv :
    HasDerivAt absBackward (3 / 8) (Real.log 3) ∧
    absJacobianDet (Real.log 3) ≠ Real.log |(3 / 8 : ℝ)| := by
  refine ⟨hasDerivAt_absBackward_log3, ?_⟩
  unfold absJacobianDet softplus
  rw [exp_neg_log3]
  have habs : |(3 / 8 : ℝ)| = 3 / 8 := abs_of_pos (by norm_num)
  rw [habs]
  have h43 : (1 : ℝ) + 1 / 3 = 4 / 3 := by norm_num
  rw [h43, Real.log_div (by norm_num : (4 : ℝ) ≠ 0) (by norm_num : (3 : ℝ) ≠ 0),
    Real.log_div (by norm_num : (3 : ℝ) ≠ 0) (by norm_num : (8 : ℝ) ≠ 0)]
  intro h
  have h16 : Real.log 16 = 2 * Real.log 4 := by
    rw [show (16 : ℝ) = 4 ^ 2 by norm_num, Real.log_pow]
    push_cast
    ring
  have hlt : Real.log 8 < Real.log 16 :=
    Real.log_lt_log (by norm_num) (by norm_num)
  linarith

/-- C4 amended: wherever the map `y ↦ |2*sigmoid(y)-1|` is differentiable
(every `y ≠ 0`), `jacobian_det(y) = -2*softplus(-y) - y` equals the log of
the absolute derivative *minus the constant `log 2`*: the code returns
`log(sigmoid(y)*(1-sigmoid(y)))` while the true absolute derivative is
`2*sigmoid(y)*(1-sigmoid(y))`. -/
theorem absJacobianDet_off_by_log_two (y d : ℝ) (hy : y ≠ 0)
    (hd : HasDerivAt absBackward d y) :
    absJacobianDet y = Real.log |d| - Real.log 2 := by
  rw [abs_deriv_absBackward hy hd, log_two_mul_sig]
  unfold absJacobianDet softplus
  ring

/-- Witness for the amended C4 at `y = log 3`, `d = 3/8`. -/
theorem absJacobianDet_off_by_log_two_witness :
    (Real.log 3 ≠ 0 ∧ HasDerivAt absBackward (3 / 8) (Real.log 3)) ∧
    absJacobianDet (Real.log 3) = Real.log |(3 / 8 : ℝ)| - Real.log 2 :=
  ⟨⟨ne_of_gt (Real.log_pos (by norm_num)), hasDerivAt_absBackward_log3⟩,
    absJacobianDet_off_by_log_two (Real.log 3) (3 / 8)
      (ne_of_gt (Real.log_pos (by norm_num))) hasDerivAt_absBackward_log3⟩
